import Mathlib

/-!
Verification of the message-passing / pooling subsystem of an
equivariant point-cloud library (`e3nn/point/message_passing.py`).

The Python modules are shallowly embedded:

* `Convolution.forward` (generic message passing) is embedded twice, over two
  observables of the same source lines:
  - `convForward`: the numeric semantics over exact reals (float64 is modelled
    as exact real arithmetic), with the per-edge kernel as an explicit matrix
    valued function (the kernel is an external collaborator);
  - `convForwardE`: the list-level semantics over rationals with `Option`
    tracking the runtime shape errors of the underlying tensor library
    (`none` models a raised shape/index error, `some` a normal return).
* `WTPConv.forward` / `WTPConv2.forward` are embedded over exact reals with the
  external collaborators (tensor product, radial model, spherical harmonics,
  linear maps) as function parameters.
* `Bloom.forward`, `KMeans` and `SymmetricKMeans` are embedded over rationals.

Machine floats are modelled as exact arithmetic; "within 1e-10 absolute error"
statements become exact (in)equalities, and counterexamples exhibit gaps far
larger than the stated tolerance.
-/

namespace MessagePassing

open Matrix

/-- A 3D geometric vector (one row of `edge_r`), real valued. -/
abbrev Vec3 := Fin 3 → ℝ

/-- A 3D geometric vector over the rationals (for the executable models). -/
abbrev Vec3Q := Fin 3 → ℚ

/-- Embedding of `Convolution.forward` (message_passing.py lines 23-48), numeric
semantics.  The external kernel collaborator is the parameter `K`; per source,
the kernel is evaluated on each edge vector, divided by `n_norm ** 0.5`, applied
to the feature row of the edge target (`x_j`, flow is target-to-source), and the
messages are sum-aggregated at the edge source.  An edge is a triple
`(source, target, edge_r)`; grouping is not exercised here (`groups = 1`). -/
noncomputable def convForward {ns nt din dout : ℕ}
    (K : Vec3 → Matrix (Fin dout) (Fin din) ℝ) (nNorm : ℝ)
    (features : Fin nt → Fin din → ℝ)
    (edges : List (Fin ns × Fin nt × Vec3)) : Fin ns → Fin dout → ℝ :=
  fun s =>
    ((edges.filter fun e => decide (e.1 = s)).map
      fun e => (Real.sqrt nNorm)⁻¹ • (K e.2.2 *ᵥ features e.2.1)).sum

/-- Sum-aggregation by source index with a fixed output size (`dim_size = ns`):
the model of the `aggr='add'` scatter used by `propagate`. -/
def aggregateQ (ns dim : ℕ) (srcs : List ℕ) (msgs : List (List ℚ)) : List (List ℚ) :=
  (List.range ns).map fun s =>
    ((srcs.zip msgs).filterMap fun e => if e.1 = s then some e.2 else none).foldr
      (List.zipWith (· + ·)) (List.replicate dim 0)

/-- Embedding of `Convolution.forward` and `Convolution.message`
(message_passing.py lines 23-48), list-level semantics with runtime shape
errors of the tensor library modelled by `Option` (`none` is a raised error).
The kernel collaborator returns a `[cout, cin]` matrix per edge as an entry
function; `nns` is the precomputed value of `n_norm ** 0.5` (the claims only
exercise `n_norm = 1`).  Mirrored checks, in source execution order: the
index-select / scatter bounds of `propagate`, the `x_j.view(N, groups, cin)`
reshape, the explicit `k.shape[0] == 0` guard of `message` (line 44), and the
`einsum` / scatter length agreement.  No shape validation is performed up
front, exactly as in the source. -/
def convForwardE (kernel : Vec3Q → ℕ → ℕ → ℚ) (cout cin : ℕ) (nns : ℚ)
    (features : List (List ℚ)) (edgeIndex : List (ℕ × ℕ)) (edgeR : List Vec3Q)
    (ns groups : ℕ) : Option (List (List ℚ)) :=
  let k := edgeR.map kernel
  if edgeIndex.all fun e => decide (e.2 < features.length ∧ e.1 < ns) then
    let xj := edgeIndex.map fun e => features.getD e.2 []
    if xj.all fun row => decide (row.length = groups * cin) then
      if k.length = 0 then
        if edgeIndex.length = 0 then
          some (aggregateQ ns (groups * cout) [] [])
        else none
      else if k.length = edgeIndex.length then
        let msgs := List.zipWith
          (fun kf row => (List.range (groups * cout)).map fun gi =>
            ((List.range cin).map fun j =>
              kf (gi % cout) j / nns * row.getD (gi / cout * cin + j) 0).sum)
          k xj
        some (aggregateQ ns (groups * cout) (edgeIndex.map Prod.fst) msgs)
      else none
    else none
  else none

/-- Pointwise evaluation of a sum of vectors. -/
theorem listSum_apply {d : ℕ} (l : List (Fin d → ℝ)) (i : Fin d) :
    l.sum i = (l.map fun v => v i).sum := by
  induction l with
  | nil => rfl
  | cons v t ih => simp [List.sum_cons, ih]

/-- The constant scalar kernel of weight 1 (the "identity scalar kernel" of the
flow test: `Kernel(Rs=[0], Rs=[0], ConstantRadialModel)` with its weight fixed
to 1, which maps every edge vector to the 1x1 matrix `[[1]]`). -/
noncomputable def kIdOne : Vec3 → Matrix (Fin 1) (Fin 1) ℝ := fun _ => 1

/-- The star-graph features `[-1, 1, 1, 1, 1]` of the flow test. -/
noncomputable def starFeatures : Fin 5 → Fin 1 → ℝ :=
  ![![-1], ![1], ![1], ![1], ![1]]

/-- The star-graph edges: `edge_index = [[0,0,0,0],[1,2,3,4]]` with all-ones
edge vectors, as `(source, target, edge_r)` triples. -/
noncomputable def starEdges : List (Fin 5 × Fin 5 × Vec3) :=
  [(0, 1, fun _ => 1), (0, 2, fun _ => 1), (0, 3, fun _ => 1), (0, 4, fun _ => 1)]

/-- Claim C2: on the star graph with features `[-1,1,1,1,1]`, the identity
scalar kernel of weight 1 and `edge_index = [[0,0,0,0],[1,2,3,4]]`, the
convolution aggregates the per-edge messages (each computed from the target
node's feature) at the edge source: row 0 of the output is 4, the sum of the
four leaf values, and rows 1 through 4 are 0. -/
theorem conv_star_graph_flow :
    convForward kIdOne 1 starFeatures starEdges = fun s _ => if s = 0 then 4 else 0 := by
  funext s i
  fin_cases s <;> fin_cases i <;>
    simp [convForward, starEdges, starFeatures, kIdOne, listSum_apply,
      Matrix.mulVec, Matrix.dotProduct, Fin.sum_univ_succ] <;>
    norm_num

/-- Claim C3: with an empty edge set, `Convolution.forward` returns the all-zero
output of shape `[n_source, dim(Rs_out)]` for every kernel, normalization count
and feature tensor; in the error-tracking model it returns normally
(`some`, i.e. no shape error is raised on the zero-length edge set, thanks to
the explicit `k.shape[0] == 0` guard of `message`). -/
theorem conv_empty_edges {ns nt din dout : ℕ}
    (K : Vec3 → Matrix (Fin dout) (Fin din) ℝ) (nNorm : ℝ)
    (features : Fin nt → Fin din → ℝ)
    (kernel : Vec3Q → ℕ → ℕ → ℚ) (cout cin : ℕ) (nns : ℚ)
    (featuresQ : List (List ℚ)) (nsq groups : ℕ) :
    convForward K nNorm features ([] : List (Fin ns × Fin nt × Vec3)) = (fun _ _ => 0) ∧
    convForwardE kernel cout cin nns featuresQ [] [] nsq groups
      = some (List.replicate nsq (List.replicate (groups * cout) 0)) := by
  constructor
  · funext s i
    simp [convForward]
  · simp [convForwardE, aggregateQ, List.map_const']

/-- Matrix-vector product distributes over a list sum of vectors. -/
theorem mulVec_listSum {m n : ℕ} (A : Matrix (Fin m) (Fin n) ℝ) (l : List (Fin n → ℝ)) :
    A *ᵥ l.sum = (l.map fun v => A *ᵥ v).sum := by
  induction l with
  | nil => simp
  | cons v t ih => simp [List.sum_cons, Matrix.mulVec_add, ih]

/-- Claim C1 (amended): rotation equivariance of `Convolution` as the
repository's own equivariance test states it.  If the external kernel
collaborator intertwines the rotation matrices (`K (R r) * D_in = D_out * K r`)
and `D_out` is orthogonal, then applying the input rotation matrices first and
the layer second, then the output rotation matrix, recovers the unrotated
output: `Convolution(features @ D_inᵀ, edge_index, edge_geom @ Rᵀ) @ D_out =
Convolution(features, edge_index, edge_geom)` (row `s`, exact arithmetic;
multiplying a row by `D_out` on the right is `D_outᵀ *ᵥ`). -/
theorem conv_rotation_equivariance {ns nt din dout : ℕ}
    (K : Vec3 → Matrix (Fin dout) (Fin din) ℝ)
    (R : Matrix (Fin 3) (Fin 3) ℝ)
    (Din : Matrix (Fin din) (Fin din) ℝ) (Dout : Matrix (Fin dout) (Fin dout) ℝ)
    (hK : ∀ r, K (R *ᵥ r) * Din = Dout * K r)
    (hD : Dout * Dout.transpose = 1)
    (nNorm : ℝ) (features : Fin nt → Fin din → ℝ)
    (edges : List (Fin ns × Fin nt × Vec3)) (s : Fin ns) :
    Dout.transpose *ᵥ
        convForward K nNorm (fun t => Din *ᵥ features t)
          (edges.map fun e => (e.1, e.2.1, R *ᵥ e.2.2)) s
      = convForward K nNorm features edges s := by
  have hDD : Dout.transpose * Dout = 1 := Matrix.mul_eq_one_comm.mp hD
  have key : ∀ (r : Vec3) (x : Fin din → ℝ),
      Dout.transpose *ᵥ ((Real.sqrt nNorm)⁻¹ • (K (R *ᵥ r) *ᵥ (Din *ᵥ x)))
        = (Real.sqrt nNorm)⁻¹ • (K r *ᵥ x) := by
    intro r x
    rw [Matrix.mulVec_smul, Matrix.mulVec_mulVec, Matrix.mulVec_mulVec,
      Matrix.mul_assoc, hK, ← Matrix.mul_assoc, hDD, Matrix.one_mul]
  induction edges with
  | nil => simp [convForward]
  | cons e t ih =>
    by_cases h : e.1 = s
    · simp only [convForward] at ih ⊢
      simp only [List.map_cons, List.filter_cons, h, decide_True, if_true,
        List.sum_cons, Matrix.mulVec_add, key]
      rw [ih]
    · simp only [convForward] at ih ⊢
      simpa only [List.map_cons, List.filter_cons, h, decide_False,
        Bool.false_eq_true, if_false] using ih

/-- Rotation by 90 degrees about the z axis: a concrete rotation matrix, which
is also the l=1 representation matrix of that rotation. -/
noncomputable def rotZ : Matrix (Fin 3) (Fin 3) ℝ := !![0, -1, 0; 1, 0, 0; 0, 0, 1]

/-- A concrete member of the kernel collaborator's contract: the outer-product
kernel `K r = r rᵀ`, which satisfies `K (Q r) = Q (K r) Qᵀ` for every rotation
`Q` (an l=1 to l=1 equivariant per-edge operator). -/
noncomputable def kOuter : Vec3 → Matrix (Fin 3) (Fin 3) ℝ :=
  fun r => Matrix.of fun i j => r i * r j

/-- A single feature row `(1, 0, 0)`. -/
noncomputable def oneHotX : Fin 1 → Fin 3 → ℝ := ![![1, 0, 0]]

/-- A single self-edge with edge vector `(1, 0, 0)`. -/
noncomputable def singleEdge : List (Fin 1 × Fin 1 × Vec3) := [(0, 0, ![1, 0, 0])]

/-- The outer-product kernel intertwines `rotZ` on both sides. -/
theorem kOuter_equivariant : ∀ r, kOuter (rotZ *ᵥ r) * rotZ = rotZ * kOuter r := by
  intro r
  have hr : rotZ *ᵥ r = ![-r 1, r 0, r 2] := by
    funext i
    fin_cases i <;>
      simp [rotZ, Matrix.mulVec, Matrix.dotProduct, Fin.sum_univ_three] <;> ring
  rw [hr]
  ext i j
  fin_cases i <;> fin_cases j <;>
    simp [-mul_eq_zero, kOuter, rotZ, Matrix.mul_apply, Fin.sum_univ_three,
      Matrix.vecHead, Matrix.vecTail] <;> ring

/-- `rotZ` is orthogonal. -/
theorem rotZ_orthogonal : rotZ * rotZ.transpose = 1 := by
  ext i j
  fin_cases i <;> fin_cases j <;>
    simp [rotZ, Matrix.mul_apply, Matrix.transpose_apply, Matrix.one_apply,
      Fin.sum_univ_three, Matrix.vecHead, Matrix.vecTail]

/-- Claim C1, counterexample: with the equivariant outer-product kernel and the
90-degree rotation about z (serving as `R`, `D_in` and `D_out`), the claim's
equation `Convolution(features @ D_inᵀ, edge_index, edge_geom @ Rᵀ) =
Convolution(features, edge_index, edge_geom) @ D_out` fails at output entry
(0,1) by an absolute gap of 2, far beyond the stated 1e-10 tolerance: the
output rotation matrix must multiply the rotated output (as in the
repository's test), not the unrotated one. -/
theorem conv_rotation_equivariance_cex :
    (∀ r, kOuter (rotZ *ᵥ r) * rotZ = rotZ * kOuter r) ∧
    rotZ * rotZ.transpose = 1 ∧
    ¬ |convForward kOuter 1 (fun t => rotZ *ᵥ oneHotX t)
          (singleEdge.map fun e => (e.1, e.2.1, rotZ *ᵥ e.2.2)) 0 1
        - (rotZ.transpose *ᵥ convForward kOuter 1 oneHotX singleEdge 0) 1|
      ≤ 1 / 10 ^ 10 := by
  refine ⟨kOuter_equivariant, rotZ_orthogonal, ?_⟩
  have h1 : convForward kOuter 1 (fun t => rotZ *ᵥ oneHotX t)
      (singleEdge.map fun e => (e.1, e.2.1, rotZ *ᵥ e.2.2)) 0 1 = 1 := by
    simp [convForward, singleEdge, oneHotX, kOuter, rotZ, listSum_apply,
      Matrix.mulVec, Matrix.dotProduct, Fin.sum_univ_succ, Real.sqrt_one]
  have h2 : (rotZ.transpose *ᵥ convForward kOuter 1 oneHotX singleEdge 0) 1 = -1 := by
    simp [convForward, singleEdge, oneHotX, kOuter, rotZ, listSum_apply,
      Matrix.mulVec, Matrix.dotProduct, Fin.sum_univ_succ, Real.sqrt_one]
  rw [h1, h2]
  norm_num

/-- Witness for the amended claim C1 at a concrete instance: the outer-product
kernel, the 90-degree rotation about z, one node and one edge. -/
theorem conv_rotation_equivariance_witness :
    rotZ.transpose *ᵥ
        convForward kOuter 1 (fun t => rotZ *ᵥ oneHotX t)
          (singleEdge.map fun e => (e.1, e.2.1, rotZ *ᵥ e.2.2)) 0
      = convForward kOuter 1 oneHotX singleEdge 0 :=
  conv_rotation_equivariance kOuter rotZ rotZ rotZ kOuter_equivariant
    rotZ_orthogonal 1 oneHotX singleEdge 0

/-- The scaling `sh = sh / n_norm ** 0.5` applied to the spherical-harmonic
edge attribute (message_passing.py lines 84 and 121); it is applied whether or
not `sh` was supplied by the caller. -/
noncomputable def scaleSh (nNorm : ℝ) (sh : List (List ℝ)) : List (List ℝ) :=
  sh.map (List.map fun x => x / Real.sqrt nNorm)

/-- Euclidean length of an edge vector (`edge_r.norm(dim=1)`). -/
noncomputable def vecNorm (r : Vec3) : ℝ := Real.sqrt (r 0 ^ 2 + r 1 ^ 2 + r 2 ^ 2)

/-- Sum-aggregation by source index over real-valued rows with fixed output
size: the `aggr='add'` scatter of `propagate`. -/
noncomputable def aggregateR (ns dim : ℕ) (srcs : List ℕ) (msgs : List (List ℝ)) :
    List (List ℝ) :=
  (List.range ns).map fun s =>
    ((srcs.zip msgs).filterMap fun e => if e.1 = s then some e.2 else none).foldr
      (List.zipWith (· + ·)) (List.replicate dim 0)

/-- The `propagate` step shared by `WTPConv.message` and `WTPConv2.message`
(lines 88-96 and 126/134-135): per edge `j`, the message is the weighted tensor
product `tp(x_j, sh_j, w_j)` of the target's feature row, the edge's
spherical-harmonic row and the edge's radial weights; messages are
sum-aggregated at the edge source. -/
noncomputable def wtpPropagate (tp : List ℝ → List ℝ → List ℝ → List ℝ)
    (features : List (List ℝ)) (edgeIndex : List (ℕ × ℕ))
    (sh w : List (List ℝ)) (ns dim : ℕ) : List (List ℝ) :=
  aggregateR ns dim (edgeIndex.map Prod.fst)
    ((List.range edgeIndex.length).map fun j =>
      tp (features.getD (edgeIndex.getD j (0, 0)).2 []) (sh.getD j []) (w.getD j []))

/-- Embedding of `WTPConv.forward` (lines 68-96).  The external collaborators
are parameters: `tp` (the weighted tensor product), `rm` (the radial model) and
`shFn` (the spherical-harmonics evaluation of `edge_r`).  Per source: `sh` is
the supplied tensor or else `shFn edge_r`, then divided by `n_norm ** 0.5`;
`w = rm(edge_r.norm(dim=1))` per edge; then propagate. -/
noncomputable def wtpForward (tp : List ℝ → List ℝ → List ℝ → List ℝ)
    (rm : ℝ → List ℝ) (shFn : List Vec3 → List (List ℝ))
    (features : List (List ℝ)) (edgeIndex : List (ℕ × ℕ)) (edgeR : List Vec3)
    (shOpt : Option (List (List ℝ))) (nNorm : ℝ) (ns dim : ℕ) : List (List ℝ) :=
  let sh := scaleSh nNorm (match shOpt with | none => shFn edgeR | some s => s)
  let w := edgeR.map fun r => rm (vecNorm r)
  wtpPropagate tp features edgeIndex sh w ns dim

/-- A representation block `(multiplicity, l, parity)`. -/
abbrev RsBlock := ℕ × ℕ × ℤ

/-- Total dimension of a representation list: `sum of mul * (2l+1)`. -/
def rsDim (Rs : List RsBlock) : ℕ := (Rs.map fun b => b.1 * (2 * b.2.1 + 1)).sum

/-- Whether a representation list contains a block with the given `(l, p)`
(the generator expression on line 129). -/
def containsLP (RsIn : List RsBlock) (l : ℕ) (p : ℤ) : Bool :=
  RsIn.any fun b => decide (b.2.1 = l ∧ b.2.2 = p)

/-- The `has_self_interaction` indicator vector of `WTPConv2.forward`
(lines 128-131): one entry per output coordinate, 1 on blocks whose `(l, p)`
occurs in `Rs_in`, 0 otherwise. -/
noncomputable def hasSelfVec (RsIn RsOut : List RsBlock) : List ℝ :=
  RsOut.flatMap fun b =>
    List.replicate (b.1 * (2 * b.2.1 + 1))
      (if containsLP RsIn b.2.1 b.2.2 then (1 : ℝ) else 0)

/-- The final mixing of `WTPConv2.forward` (line 132), elementwise:
`0.5**0.5 * self_interaction + (1 + (0.5**0.5 - 1) * has_self_interaction) *
features`. -/
noncomputable def mixRow : List ℝ → List ℝ → List ℝ → List ℝ
  | s :: ss, h :: hs, f :: fs =>
      (Real.sqrt (1 / 2) * s + (1 + (Real.sqrt (1 / 2) - 1) * h) * f) :: mixRow ss hs fs
  | _, _, _ => []

/-- The self-interaction path of `WTPConv2.forward` (line 125):
`lin1` applied to the input features, bypassing the graph. -/
noncomputable def wtp2SelfPath (lin1 : List ℝ → List ℝ) (features : List (List ℝ)) :
    List (List ℝ) :=
  features.map lin1

/-- The message path of `WTPConv2.forward` (lines 119-127): propagate the
weighted-tensor-product messages, then apply the post-aggregation linear map
`lin2`.  `WTPConv2` assumes input and output positions coincide, so the output
size is `features.length`. -/
noncomputable def wtp2MsgPath (tp : List ℝ → List ℝ → List ℝ → List ℝ)
    (lin2 : List ℝ → List ℝ) (rm : ℝ → List ℝ) (shFn : List Vec3 → List (List ℝ))
    (features : List (List ℝ)) (edgeIndex : List (ℕ × ℕ)) (edgeR : List Vec3)
    (shOpt : Option (List (List ℝ))) (nNorm : ℝ) (dim : ℕ) : List (List ℝ) :=
  let sh := scaleSh nNorm (match shOpt with | none => shFn edgeR | some s => s)
  let w := edgeR.map fun r => rm (vecNorm r)
  (wtpPropagate tp features edgeIndex sh w features.length dim).map lin2

/-- Embedding of `WTPConv2.forward` (lines 117-132): the self-interaction path
and the message path blended elementwise through the `has_self_interaction`
indicator. -/
noncomputable def wtp2Forward (RsIn RsOut : List RsBlock)
    (lin1 lin2 : List ℝ → List ℝ) (tp : List ℝ → List ℝ → List ℝ → List ℝ)
    (rm : ℝ → List ℝ) (shFn : List Vec3 → List (List ℝ))
    (features : List (List ℝ)) (edgeIndex : List (ℕ × ℕ)) (edgeR : List Vec3)
    (shOpt : Option (List (List ℝ))) (nNorm : ℝ) : List (List ℝ) :=
  List.zipWith (fun srow frow => mixRow srow (hasSelfVec RsIn RsOut) frow)
    (wtp2SelfPath lin1 features)
    (wtp2MsgPath tp lin2 rm shFn features edgeIndex edgeR shOpt nNorm (rsDim RsOut))

/-- Scaling by `n_norm = 1` is the identity. -/
theorem scaleSh_one (sh : List (List ℝ)) : scaleSh 1 sh = sh := by
  simp [scaleSh]

/-- Claim C10: in `WTPConv.forward` and `WTPConv2.forward` the caller-supplied
`sh` tensor is still divided by `sqrt(normalization_count)`: the output with a
supplied `sh = s` and normalization count `c` equals the output produced from
the prescaled attribute `s / sqrt(c)` (with normalization count 1); a supplied
`sh` is never used unscaled when `c` is not 1. -/
theorem wtp_supplied_sh_is_scaled
    (tp : List ℝ → List ℝ → List ℝ → List ℝ) (rm : ℝ → List ℝ)
    (shFn : List Vec3 → List (List ℝ)) (features : List (List ℝ))
    (edgeIndex : List (ℕ × ℕ)) (edgeR : List Vec3) (s : List (List ℝ)) (c : ℝ)
    (ns dim : ℕ) (RsIn RsOut : List RsBlock) (lin1 lin2 : List ℝ → List ℝ) :
    wtpForward tp rm shFn features edgeIndex edgeR (some s) c ns dim
      = wtpForward tp rm shFn features edgeIndex edgeR (some (scaleSh c s)) 1 ns dim ∧
    wtp2Forward RsIn RsOut lin1 lin2 tp rm shFn features edgeIndex edgeR (some s) c
      = wtp2Forward RsIn RsOut lin1 lin2 tp rm shFn features edgeIndex edgeR
          (some (scaleSh c s)) 1 := by
  constructor
  · simp [wtpForward, scaleSh_one]
  · simp [wtp2Forward, wtp2MsgPath, scaleSh_one]

/-- The flat index `i` of a representation's feature layout falls in the block
returned by `blockLP` (its `(l, p)` pair). -/
def blockLP : List RsBlock → ℕ → ℕ × ℤ
  | [], _ => (0, 1)
  | b :: rest, i =>
      if i < b.1 * (2 * b.2.1 + 1) then (b.2.1, b.2.2)
      else blockLP rest (i - b.1 * (2 * b.2.1 + 1))

/-- The indicator vector has one entry per output coordinate. -/
theorem hasSelfVec_length (RsIn RsOut : List RsBlock) :
    (hasSelfVec RsIn RsOut).length = rsDim RsOut := by
  induction RsOut with
  | nil => rfl
  | cons b rest ih => simp [hasSelfVec, rsDim] at ih ⊢; omega

/-- Entry `i` of the `has_self_interaction` vector is 1 exactly when the block
containing flat index `i` has an `(l, p)` match in `Rs_in`. -/
theorem hasSelfVec_getD (RsIn RsOut : List RsBlock) (i : ℕ) (hi : i < rsDim RsOut) :
    (hasSelfVec RsIn RsOut).getD i 0
      = if containsLP RsIn (blockLP RsOut i).1 (blockLP RsOut i).2 then 1 else 0 := by
  induction RsOut generalizing i with
  | nil => simp [rsDim] at hi
  | cons b rest ih =>
    have hlen : (List.replicate (b.1 * (2 * b.2.1 + 1))
        (if containsLP RsIn b.2.1 b.2.2 then (1 : ℝ) else 0)).length
        = b.1 * (2 * b.2.1 + 1) := List.length_replicate _ _
    by_cases h : i < b.1 * (2 * b.2.1 + 1)
    · rw [hasSelfVec, List.flatMap_cons, List.getD_append _ _ _ _ (by rw [hlen]; exact h)]
      rw [blockLP, if_pos h]
      simp [List.getD_eq_getElem, hlen, h, List.getElem_replicate]
    · have hge : b.1 * (2 * b.2.1 + 1) ≤ i := Nat.le_of_not_lt h
      have hi2 : i - b.1 * (2 * b.2.1 + 1) < rsDim rest := by
        simp [rsDim] at hi ⊢; omega
      rw [hasSelfVec, List.flatMap_cons, List.getD_append_right _ _ _ _ (by rw [hlen]; exact hge)]
      rw [blockLP, if_neg h, hlen]
      exact ih _ hi2

/-- Elementwise description of the mixing on line 132. -/
theorem mixRow_getD (s h f : List ℝ) (i : ℕ)
    (hs : i < s.length) (hh : i < h.length) (hf : i < f.length) :
    (mixRow s h f).getD i 0
      = Real.sqrt (1 / 2) * s.getD i 0
        + (1 + (Real.sqrt (1 / 2) - 1) * h.getD i 0) * f.getD i 0 := by
  induction s generalizing h f i with
  | nil => simp at hs
  | cons a ss ih =>
    cases h with
    | nil => simp at hh
    | cons a2 hs2 =>
      cases f with
      | nil => simp at hf
      | cons a3 fs2 =>
        cases i with
        | zero => simp [mixRow]
        | succ i =>
          simp only [mixRow, List.getD_cons_succ]
          exact ih hs2 fs2 i (by simpa using hs) (by simpa using hh) (by simpa using hf)

/-- Rows of a zipWith, through `getD`. -/
theorem zipWith_getD {α β γ : Type} (f : α → β → γ) (a : List α) (b : List β)
    (n : ℕ) (ha : n < a.length) (hb : n < b.length) (da : α) (db : β) (d : γ) :
    (List.zipWith f a b).getD n d = f (a.getD n da) (b.getD n db) := by
  induction a generalizing b n with
  | nil => simp at ha
  | cons x xs ih =>
    cases b with
    | nil => simp at hb
    | cons y ys =>
      cases n with
      | zero => simp
      | succ n =>
        simp only [List.zipWith_cons_cons, List.getD_cons_succ]
        exact ih ys n (by simpa using ha) (by simpa using hb)

/-- The message path has one row per node. -/
theorem wtp2MsgPath_length (tp : List ℝ → List ℝ → List ℝ → List ℝ)
    (lin2 : List ℝ → List ℝ) (rm : ℝ → List ℝ) (shFn : List Vec3 → List (List ℝ))
    (features : List (List ℝ)) (edgeIndex : List (ℕ × ℕ)) (edgeR : List Vec3)
    (shOpt : Option (List (List ℝ))) (nNorm : ℝ) (dim : ℕ) :
    (wtp2MsgPath tp lin2 rm shFn features edgeIndex edgeR shOpt nNorm dim).length
      = features.length := by
  simp [wtp2MsgPath, wtpPropagate, aggregateR]

/-- Claim C4: in `WTPConv2.forward`, every output coordinate `i` (of node `n`)
equals `sqrt(1/2)` times the self-interaction path plus `c` times the
aggregated-and-linearly-mapped message path, where `c = sqrt(1/2)` if the input
representation contains a block with the same `(l, p)` as the block of `i`, and
`c = 1` otherwise. -/
theorem wtp2_mixing_rule (RsIn RsOut : List RsBlock)
    (lin1 lin2 : List ℝ → List ℝ) (tp : List ℝ → List ℝ → List ℝ → List ℝ)
    (rm : ℝ → List ℝ) (shFn : List Vec3 → List (List ℝ))
    (features : List (List ℝ)) (edgeIndex : List (ℕ × ℕ)) (edgeR : List Vec3)
    (shOpt : Option (List (List ℝ))) (nNorm : ℝ) (n i : ℕ)
    (hn : n < features.length)
    (hl1 : ((wtp2SelfPath lin1 features).getD n []).length = rsDim RsOut)
    (hl2 : ((wtp2MsgPath tp lin2 rm shFn features edgeIndex edgeR shOpt nNorm
        (rsDim RsOut)).getD n []).length = rsDim RsOut)
    (hi : i < rsDim RsOut) :
    ((wtp2Forward RsIn RsOut lin1 lin2 tp rm shFn features edgeIndex edgeR
        shOpt nNorm).getD n []).getD i 0
      = Real.sqrt (1 / 2)
          * ((wtp2SelfPath lin1 features).getD n []).getD i 0
        + (if containsLP RsIn (blockLP RsOut i).1 (blockLP RsOut i).2
            then Real.sqrt (1 / 2) else 1)
          * ((wtp2MsgPath tp lin2 rm shFn features edgeIndex edgeR shOpt nNorm
              (rsDim RsOut)).getD n []).getD i 0 := by
  have hself : (wtp2SelfPath lin1 features).length = features.length := by
    simp [wtp2SelfPath]
  have hmsg := wtp2MsgPath_length tp lin2 rm shFn features edgeIndex edgeR shOpt nNorm
    (rsDim RsOut)
  rw [wtp2Forward, zipWith_getD _ _ _ n (by rw [hself]; exact hn) (by rw [hmsg]; exact hn)
    ([] : List ℝ) ([] : List ℝ)]
  rw [mixRow_getD _ _ _ i (by rw [hl1]; exact hi)
    (by rw [hasSelfVec_length]; exact hi) (by rw [hl2]; exact hi)]
  rw [hasSelfVec_getD RsIn RsOut i hi]
  by_cases hc : containsLP RsIn (blockLP RsOut i).1 (blockLP RsOut i).2
  · rw [if_pos hc, if_pos hc]
    ring
  · rw [if_neg hc, if_neg hc]
    ring

/-- Witness data for claim C4: a scalar input representation. -/
def rsInW : List RsBlock := [(1, 0, 1)]

/-- Witness data for claim C4: an output representation with a scalar block
(matched in `rsInW`) and an l=1 odd block (unmatched). -/
def rsOutW : List RsBlock := [(1, 0, 1), (1, 1, -1)]

/-- Witness self-interaction linear map. -/
noncomputable def lin1W : List ℝ → List ℝ := fun _ => [2, 3, 5, 7]

/-- Witness post-aggregation linear map. -/
noncomputable def lin2W : List ℝ → List ℝ := fun _ => [11, 13, 17, 19]

/-- Witness tensor product collaborator. -/
noncomputable def tpW : List ℝ → List ℝ → List ℝ → List ℝ := fun _ _ _ => []

/-- Witness radial model collaborator. -/
noncomputable def rmW : ℝ → List ℝ := fun _ => []

/-- Witness spherical-harmonics collaborator. -/
noncomputable def shfW : List Vec3 → List (List ℝ) := fun _ => []

/-- Witness feature tensor: one node. -/
noncomputable def featW : List (List ℝ) := [[0]]

/-- Witness for claim C4 at a concrete instance: node 0, output coordinate 1
(inside the l=1 block of `rsOutW`, which has no match in `rsInW`). -/
theorem wtp2_mixing_rule_witness :
    ((wtp2Forward rsInW rsOutW lin1W lin2W tpW rmW shfW featW [] [] none 1).getD 0 []).getD 1 0
      = Real.sqrt (1 / 2) * ((wtp2SelfPath lin1W featW).getD 0 []).getD 1 0
        + (if containsLP rsInW (blockLP rsOutW 1).1 (blockLP rsOutW 1).2
            then Real.sqrt (1 / 2) else 1)
          * ((wtp2MsgPath tpW lin2W rmW shfW featW [] [] none 1
              (rsDim rsOutW)).getD 0 []).getD 1 0 :=
  wtp2_mixing_rule rsInW rsOutW lin1W lin2W tpW rmW shfW featW [] [] none 1 0 1
    (by simp [featW])
    (by simp [wtp2SelfPath, lin1W, featW, rsOutW, rsDim])
    (by simp [wtp2MsgPath, wtpPropagate, aggregateR, lin2W, featW, rsOutW, rsDim])
    (by decide)

/-- Claim C9, counterexample: an input whose feature dimension (2) differs from
the kernel's declared `dim(Rs_in) = cin = 1` is not rejected: with
`groups = 2` the layer computes a normal output (this is exactly the grouped
path exercised by the repository's own equivariance test, which feeds features
of dimension `groups * dim(Rs_in)` to a kernel declared for `Rs_in`).  No
validation error is raised before or during the computation. -/
theorem conv_shape_validation_cex :
    (([[(1 : ℚ), 2]].getD 0 []).length ≠ 1) ∧
    convForwardE (fun _ _ _ => 1) 1 1 1 [[1, 2]] [(0, 0)] [fun _ => 1] 1 2
      = some [[1, 2]] := by
  constructor
  · decide
  · norm_num [convForwardE, aggregateQ, List.range_succ, List.filterMap_cons,
      List.foldr_cons, List.foldr_nil, List.replicate, List.zipWith]

/-- Claim C9 (amended): `Convolution.forward` performs no up-front shape
validation at all; whenever the edge lists agree in length, the edge indices
are in range and every feature row has length `groups * cin`, the call returns
normally — even when the feature dimension differs from the declared
`dim(Rs_in) = cin` (the grouped case `groups * cin ≠ cin`).  Mismatches that do
surface (einsum / scatter length disagreements) are raised only inside message
computation, after the kernel has already been evaluated on every edge. -/
theorem conv_no_shape_validation (kernel : Vec3Q → ℕ → ℕ → ℚ) (cout cin : ℕ)
    (nns : ℚ) (features : List (List ℚ)) (edgeIndex : List (ℕ × ℕ))
    (edgeR : List Vec3Q) (ns groups : ℕ)
    (hlen : edgeR.length = edgeIndex.length)
    (hidx : ∀ e ∈ edgeIndex, e.2 < features.length ∧ e.1 < ns)
    (hrow : ∀ row ∈ features, row.length = groups * cin) :
    ∃ out, convForwardE kernel cout cin nns features edgeIndex edgeR ns groups
      = some out := by
  have h1 : (edgeIndex.all fun e => decide (e.2 < features.length ∧ e.1 < ns)) = true := by
    rw [List.all_eq_true]
    intro e he
    exact decide_eq_true (hidx e he)
  have h2 : ((edgeIndex.map fun e => features.getD e.2 []).all
      fun row => decide (row.length = groups * cin)) = true := by
    rw [List.all_eq_true]
    intro row hmem
    rw [List.mem_map] at hmem
    obtain ⟨e, he, rfl⟩ := hmem
    rw [List.getD_eq_getElem _ _ (hidx e he).1]
    exact decide_eq_true (hrow _ (List.getElem_mem _))
  rw [convForwardE]
  simp only [h1, h2, if_true, List.length_map]
  by_cases hz : edgeR.length = 0
  · have hei : edgeIndex.length = 0 := by omega
    simp [hz, hei]
  · have hz2 : edgeR ≠ [] := by
      intro hh
      rw [hh] at hz
      exact hz rfl
    have hne2 : edgeIndex ≠ [] := by
      intro hh
      rw [hh] at hlen
      simp only [List.length_nil] at hlen
      exact hz hlen
    simp only [List.map_eq_nil_iff, List.length_eq_zero, hlen]
    simp [hz2, hne2]

/-- Witness for the amended claim C9: the concrete grouped input of the
counterexample (feature dimension 2, declared `cin = 1`, `groups = 2`)
satisfies the computational well-formedness hypotheses and returns normally. -/
theorem conv_no_shape_validation_witness :
    ([fun _ => (1 : ℚ)] : List Vec3Q).length = ([((0 : ℕ), (0 : ℕ))]).length ∧
    ∃ out, convForwardE (fun _ _ _ => 1) 1 1 1 [[1, 2]] [(0, 0)] [fun _ => 1] 1 2
      = some out :=
  ⟨rfl, conv_no_shape_validation (fun _ _ _ => 1) 1 1 1 [[1, 2]] [(0, 0)]
    [fun _ => 1] 1 2 rfl (by decide) (by decide)⟩

/-- The zero 3-vector. -/
def v3zero : Vec3Q := fun _ => 0

/-- Scaling of a rational 3-vector (peak direction times radius). -/
def smul3 (c : ℚ) (v : Vec3Q) : Vec3Q := fun i => c * v i

/-- Addition of rational 3-vectors (peak offset plus node position). -/
def add3 (a b : Vec3Q) : Vec3Q := fun i => a i + b i

/-- The fallback dipole offset `sig[1:1+3]` of `Bloom.forward` (line 310): the
degree-1 component of the signal read as a direction.  (Signals shorter than 4
entries are padded with zeros here; the claims only use `lmax >= 1` signals.) -/
def fallbackL1 (sig : List ℚ) : Vec3Q := fun i => sig.getD (1 + i.val) 0

/-- Embedding of the per-node body of `Bloom.forward` (lines 297-317) for node
`i` with signal row `sig`.  The external `SphericalTensor.find_peaks` is the
parameter `findPeaks` (returning direction/radius pairs).  `none` models a
raised tensor error.  Faithful to the source, including its `percentage=True`
branch: there `torch.max(radii)` errors on an empty radii tensor (modelled by
`maximum?` returning `none`), and `keep_indices` is a boolean mask whose
`shape[0]` equals the number of peaks (not the number kept), so the zero test
on line 308 compares `radii.length` with 0 and the appended index list
replicates the node id `radii.length` times. -/
def bloomNodeE (findPeaks : List ℚ → List (Vec3Q × ℚ)) (minRadius absoluteMin : ℚ)
    (pct useL1 : Bool) (i : ℕ) (sig : List ℚ) : Option (List Vec3Q × List ℕ) :=
  let pr := if sig.any fun x => decide (x ≠ 0) then findPeaks sig else []
  let radii := pr.map Prod.snd
  if pct then
    match radii.max? with
    | none => none
    | some mx =>
        let thr := max (minRadius * mx) absoluteMin
        if radii.length = 0 then
          some (if useL1 then [fallbackL1 sig] else [v3zero], [i])
        else
          some ((pr.filter fun q => decide (thr < q.2)).map fun q => smul3 q.2 q.1,
            List.replicate radii.length i)
  else
    let keep := pr.filter fun q => decide (minRadius < q.2)
    if keep.length = 0 then
      some (if useL1 then [fallbackL1 sig] else [v3zero], [i])
    else
      some (keep.map fun q => smul3 q.2 q.1, List.replicate keep.length i)

/-- Embedding of `Bloom.forward` (lines 292-320): per-node peak extraction,
concatenation, and the final `all_peaks + pos[new_indices]` (which requires the
two concatenations to agree in length — a mismatch or an out-of-range index is
a raised broadcast error, modelled as `none`). -/
def bloomForwardE (findPeaks : List ℚ → List (Vec3Q × ℚ)) (signal : List (List ℚ))
    (pos : List Vec3Q) (minRadius : ℚ) (pct : Bool) (absoluteMin : ℚ)
    (useL1 : Bool) : Option (List Vec3Q × List ℕ) :=
  let step := fun (acc : Option (List Vec3Q × List ℕ)) (p : ℕ × List ℚ) =>
    match acc, bloomNodeE findPeaks minRadius absoluteMin pct useL1 p.1 p.2 with
    | some a, some b => some (a.1 ++ b.1, a.2 ++ b.2)
    | _, _ => none
  match signal.enum.foldl step (some ([], [])) with
  | none => none
  | some (peaks, idxs) =>
      if peaks.length = idxs.length ∧ ∀ j ∈ idxs, j < pos.length then
        some (List.zipWith (fun p j => add3 p (pos.getD j v3zero)) peaks idxs, idxs)
      else none

/-- Claim C5, failing input: in `percentage=True` mode a node with an all-zero
signal raises (`torch.max` over the empty radii tensor), instead of producing
the promised single fallback peak; the fallback branch of the percentage mode
is unreachable for any node because the zero test is applied to a boolean
mask whose `shape[0]` equals the number of found peaks. -/
theorem bloom_percentage_zero_signal_error :
    bloomForwardE (fun _ => []) [[0, 0, 0, 0]] [v3zero] (1 / 2) true (1 / 100) true
      = none := by
  decide

/-- Squared Euclidean distance of rational 3-vectors (the nearest-centroid
argmin is unchanged by squaring, keeping the model executable over ℚ). -/
def distSq (a b : Vec3Q) : ℚ :=
  (a 0 - b 0) ^ 2 + (a 1 - b 1) ^ 2 + (a 2 - b 2) ^ 2

/-- Model of the external `torch_geometric.nearest(pos, centroids, batch,
centroids_batch)` collaborator for one point `p` with batch id `b`: the index
of the closest centroid carrying the same batch id (first such index on ties;
arbitrary value 0 if the batch has no centroid — never exercised by the
claims). -/
def nearestIdx (p : Vec3Q) (b : ℕ) (centroids : List Vec3Q) (cbatch : List ℕ) : ℕ :=
  (((List.range centroids.length).filter fun m => decide (cbatch.getD m 0 = b)).foldl
    (fun acc m =>
      match acc with
      | none => some m
      | some best =>
          if distSq p (centroids.getD m v3zero) < distSq p (centroids.getD best v3zero)
          then some m else acc)
    none).getD 0

/-- Number of points assigned to centroid `m` by a classification. -/
def countAssigned (cls : List ℕ) (m : ℕ) : ℕ :=
  (cls.filter fun c => decide (c = m)).length

/-- Coordinate sums of the points assigned to centroid `m`. -/
def sumAssigned (pos : List Vec3Q) (cls : List ℕ) (m : ℕ) : Vec3Q :=
  fun i => (((pos.zip cls).filter fun pc => decide (pc.2 = m)).map fun pc => pc.1 i).sum

/-- `scatter_mean(pos, classification, dim_size=M)` at centroid `m`: the sum of
assigned points divided by the count clamped to at least 1 (the torch_scatter
mean contract; an empty centroid gets 0). -/
def scatterMeanPt (pos : List Vec3Q) (cls : List ℕ) (m : ℕ) : Vec3Q :=
  fun i => sumAssigned pos cls m i / ((max (countAssigned cls m) 1 : ℕ) : ℚ)

/-- `scatter_mean(ones(N), classification, dim_size=M)` at centroid `m` (the
`mask` of `KMeans.update_centroids`, line 339): 1 on non-empty centroids, 0 on
empty ones. -/
def maskKM (cls : List ℕ) (m : ℕ) : ℚ :=
  (countAssigned cls m : ℚ) / ((max (countAssigned cls m) 1 : ℕ) : ℚ)

/-- Embedding of `KMeans.update_centroids` (lines 334-341): classify every
point to its nearest same-batch centroid, then blend the per-centroid mean with
the previous value through the mask:
`new = update * mask + centroids * (1 - mask)`. -/
def updateCentroids (pos : List Vec3Q) (batch : List ℕ) (centroids : List Vec3Q)
    (cbatch : List ℕ) : List Vec3Q × List ℕ :=
  let cls := (pos.zip batch).map fun pb => nearestIdx pb.1 pb.2 centroids cbatch
  ((List.range centroids.length).map fun m => fun i =>
      scatterMeanPt pos cls m i * maskKM cls m
        + (centroids.getD m v3zero) i * (1 - maskKM cls m),
    cls)

/-- Claim C6: in every `KMeans` centroid-update step, a centroid with zero
assigned points keeps exactly its previous value, and a centroid with at least
one assigned point becomes the mean of its assigned points; in this exact
rational model every updated coordinate is a well-defined rational (no NaN can
arise: the divisor is the count clamped to at least 1). -/
theorem kmeans_update_centroids_rule (pos : List Vec3Q) (batch : List ℕ)
    (centroids : List Vec3Q) (cbatch : List ℕ) (m : Fin centroids.length) :
    (updateCentroids pos batch centroids cbatch).1.getD m.val v3zero
      = if countAssigned (updateCentroids pos batch centroids cbatch).2 m.val = 0
        then centroids.getD m.val v3zero
        else fun i =>
          sumAssigned pos (updateCentroids pos batch centroids cbatch).2 m.val i
            / (countAssigned (updateCentroids pos batch centroids cbatch).2 m.val : ℚ) := by
  set cls := (updateCentroids pos batch centroids cbatch).2 with hcls
  have hlen : ((List.range centroids.length).map fun m => fun i =>
      scatterMeanPt pos cls m i * maskKM cls m
        + (centroids.getD m v3zero) i * (1 - maskKM cls m)).length
      = centroids.length := by
    simp
  have hget : (updateCentroids pos batch centroids cbatch).1.getD m.val v3zero
      = fun i => scatterMeanPt pos cls m.val i * maskKM cls m.val
          + (centroids.getD m.val v3zero) i * (1 - maskKM cls m.val) := by
    show ((List.range centroids.length).map fun m => fun i =>
        scatterMeanPt pos cls m i * maskKM cls m
          + (centroids.getD m v3zero) i * (1 - maskKM cls m)).getD m.val v3zero = _
    rw [List.getD_eq_getElem _ _ (by rw [hlen]; exact m.isLt)]
    simp
  rw [hget]
  by_cases h : countAssigned cls m.val = 0
  · rw [if_pos h]
    funext i
    have hmask : maskKM cls m.val = 0 := by
      rw [maskKM, h]
      norm_num
    rw [hmask]
    ring
  · rw [if_neg h]
    funext i
    have hpos : 0 < countAssigned cls m.val := Nat.pos_of_ne_zero h
    have hmax : max (countAssigned cls m.val) 1 = countAssigned cls m.val :=
      Nat.max_eq_left hpos
    have hmask : maskKM cls m.val = 1 := by
      rw [maskKM, hmax, div_self]
      exact_mod_cast h
    rw [hmask, scatterMeanPt, hmax]
    ring

/-- Claim C7 counterexample data: three collinear points. -/
def pos3 : List Vec3Q := [![-1/1000, 0, 0], ![1/1000, 0, 0], ![44/100000, 0, 0]]

/-- Claim C7 counterexample data: a single batch. -/
def batch3 : List ℕ := [0, 0, 0]

/-- Claim C7 counterexample data: two centroids. -/
def cent2 : List Vec3Q := [![0, 0, 0], ![9/10000, 0, 0]]

/-- Claim C7 counterexample data: centroid batch ids. -/
def cbatch2 : List ℕ := [0, 0]

/-- Claim C7, counterexample: a state whose update step moves every centroid by
less than the default tolerance `tol = 0.001` (squared L2 displacements
49/625000000 and 1/100000000, both below `tol^2 = 1/1000000`), yet one further
update iteration changes the assignment: point 2 sits near the moving boundary
between the two centroids and flips from centroid 0 to centroid 1. -/
theorem kmeans_tol_stability_cex :
    (∀ m : Fin 2, distSq (cent2.getD m.val v3zero)
        ((updateCentroids pos3 batch3 cent2 cbatch2).1.getD m.val v3zero)
      < (1 / 1000) ^ 2) ∧
    (updateCentroids pos3 batch3
        (updateCentroids pos3 batch3 cent2 cbatch2).1 cbatch2).2
      ≠ (updateCentroids pos3 batch3 cent2 cbatch2).2 := by
  constructor
  · intro m
    fin_cases m <;>
      norm_num [updateCentroids, nearestIdx, distSq, countAssigned, sumAssigned,
        scatterMeanPt, maskKM, pos3, batch3, cent2, cbatch2, v3zero,
        List.range_succ, List.filter_append, List.foldl_append, List.filter_cons,
        List.foldl_cons, List.zip_cons_cons]
  · norm_num [updateCentroids, nearestIdx, distSq, countAssigned, sumAssigned,
      scatterMeanPt, maskKM, pos3, batch3, cent2, cbatch2, v3zero,
      List.range_succ, List.filter_append, List.foldl_append, List.filter_cons,
      List.foldl_cons, List.zip_cons_cons]

/-- Claim C7 (amended): once an update step moves no centroid at all (an exact
fixed point; zero displacement), a further update iteration does not change the
point-to-centroid assignment — the assignment is a function of the (unchanged)
centroids alone.  The stated "below tol" premise is too weak, as the
counterexample shows. -/
theorem kmeans_fixed_point_stable (pos : List Vec3Q) (batch : List ℕ)
    (centroids : List Vec3Q) (cbatch : List ℕ)
    (h : (updateCentroids pos batch centroids cbatch).1 = centroids) :
    (updateCentroids pos batch
        (updateCentroids pos batch centroids cbatch).1 cbatch).2
      = (updateCentroids pos batch centroids cbatch).2 := by
  rw [h]

/-- Claim C7 witness data: two points that are their own centroids. -/
def posW2 : List Vec3Q := [![0, 0, 0], ![1, 0, 0]]

/-- Claim C7 witness data: a single batch. -/
def batchW2 : List ℕ := [0, 0]

/-- Witness for the amended claim C7 at a concrete fixed point: both centroids
sit exactly on their single assigned point, the update moves nothing, and the
next assignment is unchanged. -/
theorem kmeans_fixed_point_stable_witness :
    (updateCentroids posW2 batchW2 posW2 batchW2).1 = posW2 ∧
    (updateCentroids posW2 batchW2
        (updateCentroids posW2 batchW2 posW2 batchW2).1 batchW2).2
      = (updateCentroids posW2 batchW2 posW2 batchW2).2 := by
  have hfix : (updateCentroids posW2 batchW2 posW2 batchW2).1 = posW2 := by
    simp only [updateCentroids, posW2, batchW2, List.range_succ]
    norm_num [List.zip_cons_cons, nearestIdx, countAssigned, sumAssigned,
      scatterMeanPt, maskKM, distSq, v3zero, List.range_succ, List.filter_cons,
      List.foldl_cons]
  exact ⟨hfix, kmeans_fixed_point_stable posW2 batchW2 posW2 batchW2 hfix⟩

/-- L1 distance (the default `score_norm = 1` norm of `KMeans.score`). -/
def l1dist (a b : Vec3Q) : ℚ := |a 0 - b 0| + |a 1 - b 1| + |a 2 - b 2|

/-- Embedding of `KMeans.score` (lines 330-332) restricted to one batch id:
the per-point assignment distances `(pos - centroids[classification]).norm(1)`
scatter-added over the batch. -/
def skScore (pos : List Vec3Q) (batch : List ℕ) (centroids : List Vec3Q)
    (cls : List ℕ) (b : ℕ) : ℚ :=
  ((((pos.zip cls).zip batch).filter fun x => decide (x.2 = b)).map
    fun x => l1dist x.1.1 (centroids.getD x.1.2 v3zero)).sum

/-- The `(restart, point)` pairs selected inside
`SymmetricKMeans.cluster_edge_index_by_score` (lines 364-374): the pairs whose
restart achieves the minimal score on the point's batch (the boolean selection
`scores <= min_scores` composed with the batch incidence matrix by the first
sparse product). -/
def bestPairsRN (R : ℕ) (scores : ℕ → ℕ → ℚ) (batch : List ℕ) : List (ℕ × ℕ) :=
  ((List.range R).flatMap fun r => (List.range batch.length).map fun n => (r, n)).filter
    fun rn => decide (∀ q ∈ List.range R,
      scores rn.1 (batch.getD rn.2 0) ≤ scores q (batch.getD rn.2 0))

/-- The `(best cluster, point)` incidence pairs (lines 375-376). -/
def clusterPairsSK (clsR : ℕ → List ℕ) (best : List (ℕ × ℕ)) : List (ℕ × ℕ) :=
  best.map fun rn => ((clsR rn.1).getD rn.2 0, rn.2)

/-- The point-point edges produced by the sparse self-composition
`cluster_index[[1,0]] @ cluster_index` (lines 377-382): two points are joined
exactly when they share a best cluster. -/
def ccEdgesSK (cps : List (ℕ × ℕ)) : List (ℕ × ℕ) :=
  (cps.flatMap fun p => cps.map fun q => (p, q)).filterMap
    fun pq => if pq.1.1 = pq.2.1 then some (pq.1.2, pq.2.2) else none

/-- Undirected neighbours of `x` in an edge list (networkx graphs are
undirected). -/
def nbrs (edges : List (ℕ × ℕ)) (x : ℕ) : List ℕ :=
  edges.filterMap fun e =>
    if e.1 = x then some e.2 else if e.2 = x then some e.1 else none

/-- One breadth step of component exploration. -/
def expandOnce (edges : List (ℕ × ℕ)) (s : List ℕ) : List ℕ :=
  (s ++ s.flatMap (nbrs edges)).dedup

/-- Nodes reachable from `x` in at most `fuel` steps. -/
def reachSet (edges : List (ℕ × ℕ)) (fuel x : ℕ) : List ℕ :=
  (expandOnce edges)^[fuel] [x]

/-- The canonical representative (minimal explored node) of `x`'s component;
`fuel = N` saturates any graph on `N` nodes. -/
def compRep (edges : List (ℕ × ℕ)) (fuel x : ℕ) : ℕ :=
  (reachSet edges fuel x).foldr min x

/-- The distinct component representatives of nodes `0..N-1`, in first
occurrence order. -/
def ccReps (N : ℕ) (edges : List (ℕ × ℕ)) : List ℕ :=
  ((List.range N).map fun x => compRep edges N x).dedup

/-- Model (from the external networkx contract used on lines 404-414) of the
dense connected-component labels: equal labels exactly on equal components,
with ids `0..K-1`.  The order in which components receive ids may differ from
networkx's traversal order, which no claim observes. -/
def ccLabels (N : ℕ) (edges : List (ℕ × ℕ)) (x : ℕ) : ℕ :=
  (ccReps N edges).indexOf (compRep edges N x)

/-- Number of clusters output by the connected-component step. -/
def numClusters (N : ℕ) (edges : List (ℕ × ℕ)) : ℕ := (ccReps N edges).length

/-- The shared-best-cluster edge list of `SymmetricKMeans.forward` computed
from the per-restart classifications `clsR` (the big-batch KMeans result
reshaped to `[rand_iter, N]`). -/
def symKEdges (R : ℕ) (pos : List Vec3Q) (batch : List ℕ) (centroids : List Vec3Q)
    (clsR : ℕ → List ℕ) : List (ℕ × ℕ) :=
  ccEdgesSK (clusterPairsSK clsR
    (bestPairsRN R (fun r b => skScore pos batch centroids (clsR r) b) batch))

/-- Embedding of the tail of `SymmetricKMeans.forward` (lines 396-414): the
connected-component labels of the shared-best-cluster graph over the `N`
points. -/
def symKLabels (R : ℕ) (pos : List Vec3Q) (batch : List ℕ) (centroids : List Vec3Q)
    (clsR : ℕ → List ℕ) : ℕ → ℕ :=
  ccLabels pos.length (symKEdges R pos batch centroids clsR)

/-- The number of output clusters of `SymmetricKMeans.forward`. -/
def symKNumClusters (R : ℕ) (pos : List Vec3Q) (batch : List ℕ)
    (centroids : List Vec3Q) (clsR : ℕ → List ℕ) : ℕ :=
  numClusters pos.length (symKEdges R pos batch centroids clsR)

/-- Unfolding of one exploration step. -/
theorem reachSet_succ (edges : List (ℕ × ℕ)) (n x : ℕ) :
    reachSet edges (n + 1) x = expandOnce edges (reachSet edges n x) :=
  Function.iterate_succ_apply' _ _ _

/-- The start node is always in its own reach set. -/
theorem mem_reachSet_self (edges : List (ℕ × ℕ)) (fuel x : ℕ) :
    x ∈ reachSet edges fuel x := by
  induction fuel with
  | zero => simp [reachSet]
  | succ n ih =>
    rw [reachSet_succ]
    simp only [expandOnce, List.mem_dedup, List.mem_append]
    exact Or.inl ih

/-- A function constant on every edge is constant on reach sets. -/
theorem reachSet_const (edges : List (ℕ × ℕ)) (f : ℕ → ℕ)
    (hf : ∀ e ∈ edges, f e.1 = f e.2) (fuel x : ℕ) :
    ∀ y ∈ reachSet edges fuel x, f y = f x := by
  induction fuel with
  | zero =>
    intro y hy
    simp only [reachSet, Function.iterate_zero_apply, List.mem_singleton] at hy
    rw [hy]
  | succ n ih =>
    intro y hy
    rw [reachSet_succ] at hy
    simp only [expandOnce, List.mem_dedup, List.mem_append] at hy
    rcases hy with hy | hy
    · exact ih y hy
    · rw [List.mem_flatMap] at hy
      obtain ⟨z, hz, hyz⟩ := hy
      rw [nbrs, List.mem_filterMap] at hyz
      obtain ⟨e, he, hey⟩ := hyz
      have hfy : f y = f z := by
        by_cases h1 : e.1 = z
        · rw [if_pos h1] at hey
          rw [← Option.some.inj hey, ← h1]
          exact (hf e he).symm
        · rw [if_neg h1] at hey
          by_cases h2 : e.2 = z
          · rw [if_pos h2] at hey
            rw [← Option.some.inj hey, ← h2]
            exact hf e he
          · rw [if_neg h2] at hey
            exact absurd hey (by simp)
      rw [hfy]
      exact ih z hz

/-- A fold by `min` returns the seed or a member. -/
theorem foldr_min_mem (l : List ℕ) (x : ℕ) : l.foldr min x = x ∨ l.foldr min x ∈ l := by
  induction l with
  | nil => exact Or.inl rfl
  | cons a t ih =>
    simp only [List.foldr_cons]
    rcases le_total a (t.foldr min x) with h | h
    · rw [min_eq_left h]
      exact Or.inr (List.mem_cons_self _ _)
    · rw [min_eq_right h]
      rcases ih with h2 | h2
      · exact Or.inl h2
      · exact Or.inr (List.mem_cons_of_mem _ h2)

/-- The component representative is an explored node. -/
theorem compRep_mem (edges : List (ℕ × ℕ)) (fuel x : ℕ) :
    compRep edges fuel x ∈ reachSet edges fuel x := by
  rcases foldr_min_mem (reachSet edges fuel x) x with h | h
  · rw [compRep, h]
    exact mem_reachSet_self edges fuel x
  · exact h

/-- A function constant on every edge agrees on a node and its representative. -/
theorem compRep_const (edges : List (ℕ × ℕ)) (f : ℕ → ℕ)
    (hf : ∀ e ∈ edges, f e.1 = f e.2) (fuel x : ℕ) :
    f (compRep edges fuel x) = f x :=
  reachSet_const edges f hf fuel x _ (compRep_mem edges fuel x)

/-- Best pairs carry in-range restart and point indices. -/
theorem mem_bestPairsRN (R : ℕ) (scores : ℕ → ℕ → ℚ) (batch : List ℕ)
    (rn : ℕ × ℕ) (h : rn ∈ bestPairsRN R scores batch) :
    rn.1 < R ∧ rn.2 < batch.length := by
  rw [bestPairsRN, List.mem_filter] at h
  obtain ⟨hmem, _⟩ := h
  rw [List.mem_flatMap] at hmem
  obtain ⟨r, hr, hmem2⟩ := hmem
  rw [List.mem_map] at hmem2
  obtain ⟨n, hn, rfl⟩ := hmem2
  exact ⟨List.mem_range.mp hr, List.mem_range.mp hn⟩

/-- If the big-batch classification never assigns two points of different
batches to the same centroid, then every shared-best-cluster edge joins two
points of the same batch. -/
theorem ccEdgesSK_pure (R : ℕ) (scores : ℕ → ℕ → ℚ) (batch : List ℕ)
    (clsR : ℕ → List ℕ)
    (hbatch : ∀ r n r2 n2, r < R → n < batch.length → r2 < R → n2 < batch.length →
      (clsR r).getD n 0 = (clsR r2).getD n2 0 → batch.getD n 0 = batch.getD n2 0) :
    ∀ e ∈ ccEdgesSK (clusterPairsSK clsR (bestPairsRN R scores batch)),
      batch.getD e.1 0 = batch.getD e.2 0 := by
  intro e he
  rw [ccEdgesSK, List.mem_filterMap] at he
  obtain ⟨pq, hpq, hsome⟩ := he
  rw [List.mem_flatMap] at hpq
  obtain ⟨p, hp, hq2⟩ := hpq
  rw [List.mem_map] at hq2
  obtain ⟨q, hq, rfl⟩ := hq2
  by_cases hc : p.1 = q.1
  · rw [if_pos hc] at hsome
    rw [clusterPairsSK, List.mem_map] at hp hq
    obtain ⟨rn, hrn, rfl⟩ := hp
    obtain ⟨rn2, hrn2, rfl⟩ := hq
    obtain ⟨hr, hn⟩ := mem_bestPairsRN R scores batch rn hrn
    obtain ⟨hr2, hn2⟩ := mem_bestPairsRN R scores batch rn2 hrn2
    rw [← Option.some.inj hsome]
    exact hbatch rn.1 rn.2 rn2.1 rn2.2 hr hn hr2 hn2 hc
  · rw [if_neg hc] at hsome
    exact absurd hsome (by simp)

/-- Claim C8: for the clustering stage of `Pooling.forward` driven by
`SymmetricKMeans.forward`, (1) the bloomed-point-to-cluster mapping is total
and functional — every point `n` receives exactly one label, a valid cluster
id below the cluster count; (2) no output cluster is empty — every label below
the cluster count is attained by some point; (3) clusters never combine points
of different batch examples, provided the big-batch KMeans classification
assigns same-centroid only within one batch (which `nearest` guarantees). -/
theorem symmetric_kmeans_conservation (R : ℕ) (pos : List Vec3Q)
    (batch : List ℕ) (centroids : List Vec3Q) (clsR : ℕ → List ℕ)
    (hbatch : ∀ r n r2 n2, r < R → n < batch.length → r2 < R → n2 < batch.length →
      (clsR r).getD n 0 = (clsR r2).getD n2 0 → batch.getD n 0 = batch.getD n2 0) :
    (∀ n, n < pos.length →
      symKLabels R pos batch centroids clsR n
        < symKNumClusters R pos batch centroids clsR) ∧
    (∀ c, c < symKNumClusters R pos batch centroids clsR →
      ∃ n, n < pos.length ∧ symKLabels R pos batch centroids clsR n = c) ∧
    (∀ n n2, n < pos.length → n2 < pos.length →
      symKLabels R pos batch centroids clsR n
        = symKLabels R pos batch centroids clsR n2 →
      batch.getD n 0 = batch.getD n2 0) := by
  set edges := symKEdges R pos batch centroids clsR with hedges
  have hmemrep : ∀ n, n < pos.length →
      compRep edges pos.length n ∈ ccReps pos.length edges := by
    intro n hn
    simp only [ccReps, List.mem_dedup, List.mem_map]
    exact ⟨n, List.mem_range.mpr hn, rfl⟩
  refine ⟨?_, ?_, ?_⟩
  · intro n hn
    rw [symKLabels, symKNumClusters, ccLabels, numClusters]
    exact List.indexOf_lt_length.mpr (hmemrep n hn)
  · intro c hc
    rw [symKNumClusters, numClusters] at hc
    have hmem : (ccReps pos.length edges)[c] ∈ ccReps pos.length edges :=
      List.getElem_mem hc
    simp only [ccReps, List.mem_dedup, List.mem_map] at hmem
    obtain ⟨n, hn, hrep⟩ := hmem
    refine ⟨n, List.mem_range.mp hn, ?_⟩
    rw [symKLabels, ccLabels, hrep]
    have hmemc : (ccReps pos.length edges)[c] ∈ ccReps pos.length edges :=
      List.getElem_mem hc
    have hidx : (ccReps pos.length edges).indexOf ((ccReps pos.length edges)[c])
        < (ccReps pos.length edges).length := List.indexOf_lt_length.mpr hmemc
    have := List.getElem_indexOf hidx
    exact ((List.nodup_dedup _).getElem_inj_iff).mp this
  · intro n n2 hn hn2 heq
    rw [symKLabels, ccLabels, ccLabels] at heq
    have h1 : compRep edges pos.length n ∈ ccReps pos.length edges := hmemrep n hn
    have h2 : compRep edges pos.length n2 ∈ ccReps pos.length edges := hmemrep n2 hn2
    have hrepeq : compRep edges pos.length n = compRep edges pos.length n2 :=
      (List.indexOf_inj h1 h2).mp heq
    have hpure : ∀ e ∈ edges, batch.getD e.1 0 = batch.getD e.2 0 := by
      rw [hedges, symKEdges]
      exact ccEdgesSK_pure R _ batch clsR hbatch
    have e1 := compRep_const edges (fun y => batch.getD y 0) hpure pos.length n
    have e2 := compRep_const edges (fun y => batch.getD y 0) hpure pos.length n2
    rw [← e1, ← e2, hrepeq]

/-- Witness for claim C8 at a concrete instance: two points in two different
batch examples, one restart, each point classified to its own centroid. -/
theorem symmetric_kmeans_conservation_witness :
    (∀ n, n < ([v3zero, v3zero] : List Vec3Q).length →
      symKLabels 1 [v3zero, v3zero] [0, 1] [v3zero, v3zero] (fun _ => [0, 1]) n
        < symKNumClusters 1 [v3zero, v3zero] [0, 1] [v3zero, v3zero]
            (fun _ => [0, 1])) ∧
    (∀ c, c < symKNumClusters 1 [v3zero, v3zero] [0, 1] [v3zero, v3zero]
        (fun _ => [0, 1]) →
      ∃ n, n < ([v3zero, v3zero] : List Vec3Q).length ∧
        symKLabels 1 [v3zero, v3zero] [0, 1] [v3zero, v3zero] (fun _ => [0, 1]) n
          = c) ∧
    (∀ n n2, n < ([v3zero, v3zero] : List Vec3Q).length →
      n2 < ([v3zero, v3zero] : List Vec3Q).length →
      symKLabels 1 [v3zero, v3zero] [0, 1] [v3zero, v3zero] (fun _ => [0, 1]) n
        = symKLabels 1 [v3zero, v3zero] [0, 1] [v3zero, v3zero]
            (fun _ => [0, 1]) n2 →
      ([0, 1] : List ℕ).getD n 0 = ([0, 1] : List ℕ).getD n2 0) :=
  symmetric_kmeans_conservation 1 [v3zero, v3zero] [0, 1] [v3zero, v3zero]
    (fun _ => [0, 1])
    (by
      intro r n r2 n2 hr hn hr2 hn2 heq
      simp only [List.length_cons, List.length_nil] at hn hn2
      interval_cases r
      interval_cases r2
      interval_cases n <;> interval_cases n2 <;> simp_all)

end MessagePassing
